import Mathlib

/-!
Verification of the Amharic Telegram e-commerce entity-extraction scripts.

The development shallowly embeds the two source files
`scripts/amharic_text_processor.py` and `scripts/amharic_labler.py`:
Python strings become `String`/`List Char`, possibly-non-string dynamic
values become the `PyObj` inductive, `np.nan` sentinels become `Option.none`,
and the concrete regular expressions of the sources are embedded as
executable matching functions with the exact backtracking semantics of
Python's `re` module on those patterns (documented at each definition).
Machine-independent caveat: Python's `\d`/`\s` classes are modelled by their
ASCII parts (`0`-`9` and ASCII whitespace); all data appearing in the
repository and in the claims is within that fragment.
-/

/-- A dynamically typed Python value, as far as the scripts inspect one:
`isinstance(x, str)` is the only type test performed, so the embedding keeps
the string case and a few representative non-string cases (`np.nan`,
`None`, ints, bools). -/
inductive PyObj where
  | ofString (s : String)
  | nan
  | pyNone
  | ofInt (n : Int)
  | ofBool (b : Bool)
  deriving DecidableEq, Repr

/-- `isinstance(text, str)` from the sources. -/
def PyObj.isString : PyObj → Bool
  | .ofString _ => true
  | _ => false

/-- Python's `\s` class (ASCII fragment): space, tab, newline, carriage
return, vertical tab, form feed.  Also the class stripped by `str.strip()`. -/
def isSpacePy (c : Char) : Bool :=
  c = ' ' || c = '\t' || c = '\n' || c = '\r' || c = '\x0b' || c = '\x0c'

/-- Membership in the Ethiopic Unicode block `U+1200`–`U+137F`, the character
class of `amharic_pattern = re.compile(r'[ሀ-፿]+')`
(amharic_text_processor.py line 31). -/
def isEth (c : Char) : Bool :=
  0x1200 ≤ c.toNat && c.toNat ≤ 0x137F

/-- The exact character class of
`punctuation = re.compile(r'[፡።፣፤፥፦፧፨,፠፨፩፪፫፬፭፮፯፰፱፲፳፴፵፶፷፸፹፺፻፿]')`
(amharic_text_processor.py line 28), in source order, including the
duplicated `፨` and the ASCII comma.  The final character is `U+137F`. -/
def punctChars : List Char :=
  ['፡', '።', '፣', '፤', '፥', '፦', '፧',
   '፨', ',', '፠', '፨', '፩', '፪', '፫', '፬',
   '፭', '፮', '፯', '፰', '፱', '፲', '፳',
   '፴', '፵', '፶', '፷', '፸', '፹', '፺',
   '፻', '፿']

/-- `re.sub(self.punctuation, '', text)` (line 52): delete every occurrence
of a character of the class. -/
def removePunct (l : List Char) : List Char :=
  l.filter (fun c => !(punctChars.contains c))

/-- One pass of `re.sub(r'\s+', ' ', text)` (line 55): each maximal run of
whitespace is replaced by a single space.  The flag records whether the
previous character was part of a whitespace run already rewritten. -/
def subWsAux : List Char → Bool → List Char
  | [], _ => []
  | c :: cs, b =>
    if isSpacePy c then
      if b then subWsAux cs true else ' ' :: subWsAux cs true
    else c :: subWsAux cs false

/-- `.strip()` (line 55): drop leading and trailing whitespace. -/
def strip (l : List Char) : List Char :=
  ((l.dropWhile isSpacePy).reverse.dropWhile isSpacePy).reverse

/-- `re.sub(r'\s+', ' ', text).strip()` (line 55). -/
def squeeze (l : List Char) : List Char :=
  strip (subWsAux l false)

/-- Single left-to-right pass collecting maximal runs of characters
satisfying `p`; `acc` is the current run, most recent character first. -/
def findallAux (p : Char → Bool) : List Char → List Char → List (List Char)
  | [], acc => if acc.isEmpty then [] else [acc.reverse]
  | c :: cs, acc =>
    if p c then findallAux p cs (c :: acc)
    else if acc.isEmpty then findallAux p cs []
    else acc.reverse :: findallAux p cs []

/-- `pattern.findall(text)` for a character-class-plus pattern `[class]+`:
the maximal runs of characters satisfying `p`, in order
(line 58 uses it with the Ethiopic class). -/
def findallRuns (p : Char → Bool) (l : List Char) : List (List Char) :=
  findallAux p l []

/-- `' '.join(words)` (line 60) at the character level. -/
def joinSp : List (List Char) → List Char
  | [] => []
  | [r] => r
  | r :: rs => r ++ ' ' :: joinSp rs

/-- The string body of `normalize_text` (lines 52–60): remove the
punctuation class, collapse whitespace, keep only the maximal Ethiopic runs
and join them with single spaces. -/
def normChars (l : List Char) : List Char :=
  joinSp (findallRuns isEth (squeeze (removePunct l)))

/-- `AmharicTextPreprocessor.normalize_text` (lines 33–60): non-string
input returns `np.nan` (modelled `none`, line 48–49), a string input is
normalized. -/
def normalize_text : PyObj → Option String
  | .ofString s => some (String.mk (normChars s.data))
  | _ => none

/-- Model of the external `nltk.tokenize.word_tokenize` call (line 80) on
the inputs this pipeline produces: maximal non-whitespace runs, in order.
NLTK is a third-party library, external to this repository; no claim
depends on its internals, only on the non-string branch of
`tokenize_text`. -/
def word_tokenize (s : String) : List String :=
  (findallRuns (fun c => !isSpacePy c) s.data).map String.mk

/-- `AmharicTextPreprocessor.tokenize_text` (lines 62–82): non-string input
returns `np.nan` (modelled `none`, lines 76–77), a string is tokenized. -/
def tokenize_text : PyObj → Option (List String)
  | .ofString s => some (word_tokenize s)
  | _ => none

/-!
Embedding of `scripts/amharic_labler.py`.
-/

/-- The flags argument of `re.compile`: a valid value is an `int` (or a
`RegexFlag`, which coerces to one); anything else makes the `re` parser
fail with a `TypeError` when it evaluates `flags & SRE_FLAG_VERBOSE`. -/
inductive ReFlags where
  | ofInt (n : Nat)
  | ofString (s : String)
  deriving DecidableEq, Repr

/-- `re.compile(pattern, flags)`: succeeds (returning the pattern source)
when the flags are an int, and raises `TypeError` when the flags are a
string, exactly as CPython's `re._parser.parse` does on
`flags & SRE_FLAG_VERBOSE`. -/
def re_compile (pat : String) (flags : ReFlags) : Except String String :=
  match flags with
  | .ofInt _ => .ok pat
  | .ofString _ => .error "TypeError: unsupported operand type(s) for &: 'str' and 'RegexFlag'"

/-- The labeler state set up by `AmharicNERLabeler.__init__`
(amharic_labler.py lines 6–10). -/
structure AmharicNERLabeler where
  price_pattern : String
  location_list : List String
  product_keywords : List String
  deriving DecidableEq, Repr

/-- `AmharicNERLabeler.__init__` (lines 6–10): the constructor evaluates
`re.compile(r'\d+[\s]*ብር', 'ዋጋ')`, passing the string `'ዋጋ'` where the
flags int belongs, so construction either yields the instance or raises. -/
def AmharicNERLabeler.init : Except String AmharicNERLabeler :=
  match re_compile "\\d+[\\s]*ብር" (.ofString "ዋጋ") with
  | .ok p => .ok ⟨p, ["አዲስ", "ቦሌ", "ቡልጋሪ", "በረራ"], ["ምርት", "ምርቶች"]⟩
  | .error e => .error e

/-- `self.location_list` as written on line 9. -/
def location_list : List String := ["አዲስ", "ቦሌ", "ቡልጋሪ", "በረራ"]

/-- `self.product_keywords` as written on line 10. -/
def product_keywords : List String := ["ምርት", "ምርቶች"]

/-- `re.match(r'\d+[\s]*ብር', token)` (line 20): anchored prefix match for
one-or-more digits, then optional whitespace, then the literal `ብር`.
Greedy `\d+`/`[\s]*` need no backtracking here because a digit or a
whitespace character can never begin the literal `ብር`. -/
def priceMatch (tok : String) : Bool :=
  let ds := tok.data.takeWhile Char.isDigit
  let rest := (tok.data.dropWhile Char.isDigit).dropWhile isSpacePy
  !ds.isEmpty &&
    match rest with
    | 'ብ' :: 'ር' :: _ => true
    | _ => false

/-- The body of the `for token in tokens` loop of `label_tokens`
(lines 18–29): the first matching rule, in the written order
price → product → location, determines the label; otherwise `"O"`. -/
def label_one (token : String) : String :=
  if priceMatch token then "B-PRICE"
  else if token ∈ product_keywords then "B-Product"
  else if token ∈ location_list then "B-LOC"
  else "O"

/-- `AmharicNERLabeler.label_tokens` (lines 13–31): build the label list in
token order, then `list(zip(tokens, labels))`. -/
def label_tokens (tokens : List String) : List (String × String) :=
  tokens.zip (tokens.map label_one)

/-- `AmharicNERLabeler.save_conll_format` (lines 52–67): the written file
is the concatenation, document by document, of one `"<token> <tag>\n"`
write per pair followed by one `"\n"` write. -/
def save_conll_format (docs : List (List (String × String))) : String :=
  String.join (docs.map (fun doc =>
    String.join (doc.map (fun p => p.1 ++ " " ++ p.2 ++ "\n")) ++ "\n"))

/-- Character-level image of the per-document writes of
`save_conll_format`, used to reason about the file content. -/
def docLinesC : List (String × String) → List Char
  | [] => []
  | p :: ps => p.1.data ++ ' ' :: p.2.data ++ '\n' :: docLinesC ps

/-- Character-level image of the whole file written by
`save_conll_format`. -/
def saveC : List (List (String × String)) → List Char
  | [] => []
  | doc :: rest => docLinesC doc ++ '\n' :: saveC rest

/-- Split a character sequence at every `'\n'`, keeping empty segments:
the line structure of the written file. -/
def splitLines : List Char → List (List Char)
  | [] => [[]]
  | c :: cs =>
    if c = '\n' then [] :: splitLines cs
    else
      match splitLines cs with
      | l :: ls => (c :: l) :: ls
      | [] => [[c]]

/-- The lines of the file as strings. -/
def splitLinesStr (s : String) : List String :=
  (splitLines s.data).map String.mk

/-- The CoNLL line list the spec describes: per document, one
`"<token> <tag>"` line per pair, then one blank line. -/
def conllLines : List (List (String × String)) → List String
  | [] => []
  | doc :: rest => doc.map (fun p => p.1 ++ " " ++ p.2) ++ "" :: conllLines rest

/-- Character-level view of `conllLines`. -/
def linesC : List (List (String × String)) → List (List Char)
  | [] => []
  | doc :: rest =>
    doc.map (fun p => p.1.data ++ ' ' :: p.2.data) ++ [] :: linesC rest

/-- Read one CoNLL line back: the token is everything before the first
space, the tag everything after it. -/
def parseLine (l : List Char) : String × String :=
  let tok := l.takeWhile (fun c => c ≠ ' ')
  match l.dropWhile (fun c => c ≠ ' ') with
  | _ :: tag => (String.mk tok, String.mk tag)
  | [] => (String.mk tok, "")

/-- Group parsed lines into documents: a blank line closes the current
document; a trailing unterminated document is also emitted. -/
def groupDocs : List (List Char) → List (String × String) → List (List (String × String))
  | [], acc => if acc.isEmpty then [] else [acc.reverse]
  | [] :: rest, acc => acc.reverse :: groupDocs rest []
  | (c :: cs) :: rest, acc => groupDocs rest (parseLine (c :: cs) :: acc)

/-- Drop the single empty segment a final `'\n'` leaves behind. -/
def dropTrailEmpty : List (List Char) → List (List Char)
  | [] => []
  | [[]] => []
  | l :: rest => l :: dropTrailEmpty rest

/-- Read a written CoNLL file back into per-document (token, tag) pairs. -/
def parse_conll (content : String) : List (List (String × String)) :=
  groupDocs (dropTrailEmpty (splitLines content.data)) []

/-!
Embedding of `extract_metadata` (amharic_text_processor.py lines 110–137).
The pattern is
`r"Sender:\s*(?P<sender>.*?),\s*Timestamp:\s*(?P<timestamp>.*?),\s*Message:\s*(?P<message>.*)"`
matched with `re.match`.  Each greedy `\s*` commits to its maximal run:
giving characters back would leave a whitespace character in front of a
literal (`Timestamp:`/`Message:`) or a `,`, which cannot match, so maximal
munch is exact.  The lazy groups `.*?` scan left to right for the first
position where the rest of the pattern succeeds, which the two loop
functions below implement directly; `.` never matches `'\n'`. -/

/-- Match a literal at the front of the input, returning the rest. -/
def litDrop : List Char → List Char → Option (List Char)
  | [], cs => some cs
  | _ :: _, [] => none
  | l :: ls, c :: cs => if c = l then litDrop ls cs else none

/-- Maximal-munch `\s*`. -/
def dropWs (cs : List Char) : List Char := cs.dropWhile isSpacePy

/-- Try `,\s*Message:\s*(?P<message>.*)` at the current position; the final
greedy `.*` captures the rest of the line. -/
def msgDelim (cs : List Char) : Option (List Char) :=
  match cs with
  | c :: rest =>
    if c = ',' then
      match litDrop "Message:".data (dropWs rest) with
      | some r2 => some ((dropWs r2).takeWhile (fun x => x ≠ '\n'))
      | none => none
    else none
  | [] => none

/-- The lazy `(?P<timestamp>.*?)` loop: at each position first try the
`,\s*Message:` delimiter (whose success is final, as `\s*` and `.*` always
match), otherwise consume one non-newline character into the group. -/
def tsLoop : List Char → List Char → Option (List Char × List Char)
  | acc, [] =>
    match msgDelim [] with
    | some msg => some (acc.reverse, msg)
    | none => none
  | acc, c :: rest =>
    match msgDelim (c :: rest) with
    | some msg => some (acc.reverse, msg)
    | none => if c = '\n' then none else tsLoop (c :: acc) rest

/-- Try `,\s*Timestamp:\s*` followed by the whole timestamp-and-message
tail at the current position.  A failure anywhere inside (including in
`tsLoop`) sends the engine back to growing the sender group. -/
def tsDelim (cs : List Char) : Option (List Char × List Char) :=
  match cs with
  | c :: rest =>
    if c = ',' then
      match litDrop "Timestamp:".data (dropWs rest) with
      | some r2 => tsLoop [] (dropWs r2)
      | none => none
    else none
  | [] => none

/-- The lazy `(?P<sender>.*?)` loop, with full backtracking: grow the
sender group one non-newline character at a time, trying the rest of the
pattern at each position. -/
def senderLoop : List Char → List Char → Option (List Char × List Char × List Char)
  | _, [] => none
  | acc, c :: rest =>
    match tsDelim (c :: rest) with
    | some (t, m) => some (acc.reverse, t, m)
    | none => if c = '\n' then none else senderLoop (c :: acc) rest

/-- `re.match` of the whole metadata pattern (line 131–132). -/
def matchMeta (cs : List Char) : Option (List Char × List Char × List Char) :=
  match litDrop "Sender:".data cs with
  | some r => senderLoop [] (dropWs r)
  | none => none

/-- The sequence does not begin with whitespace (vacuously true when
empty): the shape under which a leading `\s*` consumes nothing. -/
def headNotSpace (l : List Char) : Bool :=
  match l with
  | [] => true
  | c :: _ => !isSpacePy c

/-- The dict returned by `extract_metadata`; `none` models `np.nan`. -/
structure ExtractedMeta where
  sender : Option String
  timestamp : Option String
  message : Option String
  deriving DecidableEq, Repr

/-- `AmharicTextPreprocessor.extract_metadata` (lines 110–137): non-string
input gives all-`nan` (lines 127–128); a matching line gives the three
captured groups (line 135); a non-matching line gives sender/timestamp
`nan` and the whole raw line as the message (line 137). -/
def extract_metadata : PyObj → ExtractedMeta
  | .ofString raw =>
    match matchMeta raw.data with
    | some (s, t, m) => ⟨some (String.mk s), some (String.mk t), some (String.mk m)⟩
    | none => ⟨none, none, some raw⟩
  | _ => ⟨none, none, none⟩

/-- No two adjacent spaces occur in the character sequence: the
"single space separators" shape of normalized output. -/
def noDoubleSpace : List Char → Bool
  | c :: d :: rest => !(c == ' ' && d == ' ') && noDoubleSpace (d :: rest)
  | _ => true

/-!
General list lemmas used throughout.
-/

theorem takeWhile_all {p : Char → Bool} :
    ∀ {l : List Char}, (∀ c ∈ l, p c = true) → l.takeWhile p = l
  | [], _ => rfl
  | c :: cs, h => by
    simp only [List.takeWhile, h c (List.mem_cons_self c cs)]
    exact congrArg (c :: ·) (takeWhile_all fun d hd => h d (List.mem_cons_of_mem c hd))

theorem dropWhile_all {p : Char → Bool} :
    ∀ {l : List Char}, (∀ c ∈ l, p c = true) → l.dropWhile p = []
  | [], _ => rfl
  | c :: cs, h => by
    simp only [List.dropWhile, h c (List.mem_cons_self c cs)]
    exact dropWhile_all fun d hd => h d (List.mem_cons_of_mem c hd)

theorem takeWhile_append_sep {p : Char → Bool} {x : Char} {b : List Char}
    (hx : p x = false) :
    ∀ {a : List Char}, (∀ c ∈ a, p c = true) →
      (a ++ x :: b).takeWhile p = a
  | [], _ => by simp [List.takeWhile, hx]
  | c :: cs, h => by
    simp only [List.cons_append, List.takeWhile, h c (List.mem_cons_self c cs)]
    exact congrArg (c :: ·)
      (takeWhile_append_sep hx fun d hd => h d (List.mem_cons_of_mem c hd))

theorem dropWhile_append_sep {p : Char → Bool} {x : Char} {b : List Char}
    (hx : p x = false) :
    ∀ {a : List Char}, (∀ c ∈ a, p c = true) →
      (a ++ x :: b).dropWhile p = x :: b
  | [], _ => by simp [List.dropWhile, hx]
  | c :: cs, h => by
    simp only [List.cons_append, List.dropWhile, h c (List.mem_cons_self c cs)]
    exact dropWhile_append_sep hx fun d hd => h d (List.mem_cons_of_mem c hd)

theorem dropWhile_head_false {p : Char → Bool} :
    ∀ {l : List Char}, (∀ c, l.head? = some c → p c = false) →
      l.dropWhile p = l
  | [], _ => rfl
  | c :: cs, h => by simp [List.dropWhile, h c rfl]

theorem mem_takeWhile {p : Char → Bool} {c : Char} :
    ∀ {l : List Char}, c ∈ l.takeWhile p → c ∈ l ∧ p c = true := by
  intro l
  induction l with
  | nil => intro h; simp [List.takeWhile] at h
  | cons d ds ih =>
    intro h
    simp only [List.takeWhile] at h
    by_cases hd : p d = true
    · rw [hd] at h
      rcases List.mem_cons.1 h with rfl | h2
      · exact ⟨List.mem_cons_self _ _, hd⟩
      · rcases ih h2 with ⟨h3, h4⟩
        exact ⟨List.mem_cons_of_mem _ h3, h4⟩
    · rw [Bool.of_not_eq_true hd] at h
      simp at h

theorem mem_dropWhile {p : Char → Bool} {c : Char} :
    ∀ {l : List Char}, c ∈ l.dropWhile p → c ∈ l := by
  intro l
  induction l with
  | nil => intro h; simp [List.dropWhile] at h
  | cons d ds ih =>
    intro h
    simp only [List.dropWhile] at h
    by_cases hd : p d = true
    · rw [hd] at h
      exact List.mem_cons_of_mem _ (ih h)
    · rw [Bool.of_not_eq_true hd] at h
      exact h

theorem zip_map_self {α β : Type} (f : α → β) :
    ∀ l : List α, l.zip (l.map f) = l.map (fun a => (a, f a))
  | [] => rfl
  | a :: l => by
    simp only [List.map, List.zip_cons_cons]
    exact congrArg ((a, f a) :: ·) (zip_map_self f l)

/-- `label_tokens` in map form: the zip of the token list with its
pointwise labels is the pointwise pairing. -/
theorem label_tokens_eq_map (ts : List String) :
    label_tokens ts = ts.map (fun t => (t, label_one t)) := by
  simp only [label_tokens, zip_map_self]

/-- C1: `label_tokens` assigns to each token the tag of the first matching
rule in the fixed priority order price → product keyword → location,
defaulting to `"O"`, and in particular labels
`["አዲስ", "ቦሌ", "100ብር", "ምርት", "xyz"]` as
`["B-LOC", "B-LOC", "B-PRICE", "B-Product", "O"]`. -/
theorem label_tokens_priority_order :
    (∀ ts : List String, label_tokens ts =
      ts.map (fun t => (t,
        if priceMatch t then "B-PRICE"
        else if t ∈ product_keywords then "B-Product"
        else if t ∈ location_list then "B-LOC"
        else "O"))) ∧
    label_tokens ["አዲስ", "ቦሌ", "100ብር", "ምርት", "xyz"] =
      [("አዲስ", "B-LOC"), ("ቦሌ", "B-LOC"), ("100ብር", "B-PRICE"),
       ("ምርት", "B-Product"), ("xyz", "O")] := by
  constructor
  · intro ts
    rw [label_tokens_eq_map]
    rfl
  · decide

/-- C2: constructing an `AmharicNERLabeler` always raises: `__init__`
passes the string `'ዋጋ'` as the flags argument of `re.compile`, which is
rejected with a `TypeError`, so no labeler instance is ever obtained. -/
theorem init_always_raises :
    AmharicNERLabeler.init =
      Except.error "TypeError: unsupported operand type(s) for &: 'str' and 'RegexFlag'" :=
  rfl

/-- C3: `label_tokens` is total — it returns one pair per token without
error — and every token matching none of the three rules gets tag `"O"`. -/
theorem label_tokens_unmatched_O :
    ∀ ts : List String,
      (label_tokens ts).length = ts.length ∧
      ∀ (i : Nat) (t : String), ts[i]? = some t →
        priceMatch t = false → t ∉ product_keywords → t ∉ location_list →
        (label_tokens ts)[i]? = some (t, "O") := by
  intro ts
  rw [label_tokens_eq_map]
  constructor
  · exact List.length_map ts _
  · intro i t hi hp hprod hloc
    rw [List.getElem?_map, hi]
    simp [label_one, hp, hprod, hloc]

/-- Witness for C3 at the token list `["xyz"]`. -/
theorem label_tokens_unmatched_O_witness :
    (label_tokens ["xyz"]).length = 1 ∧
    (label_tokens ["xyz"])[0]? = some ("xyz", "O") :=
  ⟨(label_tokens_unmatched_O ["xyz"]).1,
   (label_tokens_unmatched_O ["xyz"]).2 0 "xyz" rfl (by decide) (by decide) (by decide)⟩

/-- C4: every non-string input makes `normalize_text` and `tokenize_text`
return the missing-value sentinel (`np.nan`, modelled `none`) instead of
raising. -/
theorem nonstring_gives_sentinel :
    ∀ v : PyObj, v.isString = false →
      normalize_text v = none ∧ tokenize_text v = none := by
  intro v h
  cases v <;> simp_all [PyObj.isString, normalize_text, tokenize_text]

/-- Witness for C4 at `np.nan`. -/
theorem nonstring_gives_sentinel_witness :
    normalize_text PyObj.nan = none ∧ tokenize_text PyObj.nan = none :=
  nonstring_gives_sentinel PyObj.nan rfl

theorem dropWhile_length_le (p : Char → Bool) :
    ∀ l : List Char, (l.dropWhile p).length ≤ l.length
  | [] => Nat.le_refl _
  | c :: cs => by
    simp only [List.dropWhile]
    split
    · exact Nat.le_succ_of_le (dropWhile_length_le p cs)
    · exact Nat.le_refl _

/-- An in-progress nonempty run is flushed in front of the span-shaped
remainder: the bridge from the accumulator pass to maximal-run form. -/
theorem findallAux_run (p : Char → Bool) :
    ∀ (cs acc : List Char), acc ≠ [] →
      findallAux p cs acc =
        (acc.reverse ++ cs.takeWhile p) :: findallRuns p (cs.dropWhile p) := by
  intro cs
  induction cs with
  | nil =>
    intro acc hacc
    have hae : acc.isEmpty = false := by
      cases acc with
      | nil => exact absurd rfl hacc
      | cons a as => rfl
    rw [findallAux, if_neg (by simp [hae])]
    simp [List.takeWhile, List.dropWhile, findallRuns, findallAux]
  | cons c cs' ih =>
    intro acc hacc
    have hae : acc.isEmpty = false := by
      cases acc with
      | nil => exact absurd rfl hacc
      | cons a as => rfl
    by_cases hc : p c = true
    · rw [findallAux, if_pos hc, ih (c :: acc) (List.cons_ne_nil _ _)]
      simp [List.takeWhile, List.dropWhile, hc]
    · have hcf : p c = false := Bool.of_not_eq_true hc
      rw [findallAux, if_neg hc, if_neg (by simp [hae])]
      have hrhs : findallRuns p ((c :: cs').dropWhile p) = findallAux p cs' [] := by
        rw [List.dropWhile, hcf, findallRuns, findallAux, if_neg hc]
        rfl
      rw [hrhs]
      simp [List.takeWhile, hcf]

theorem findallRuns_pos {p : Char → Bool} {c : Char} (cs : List Char)
    (hc : p c = true) :
    findallRuns p (c :: cs) =
      (c :: cs.takeWhile p) :: findallRuns p (cs.dropWhile p) := by
  rw [findallRuns, findallAux, if_pos hc,
    findallAux_run p cs [c] (List.cons_ne_nil _ _)]
  rfl

theorem findallRuns_neg {p : Char → Bool} {c : Char} (cs : List Char)
    (hc : p c = false) :
    findallRuns p (c :: cs) = findallRuns p cs := by
  rw [findallRuns, findallAux, if_neg (by simp [hc])]
  rfl

/-- Every run produced by `findallRuns` is nonempty, satisfies the class,
and draws its characters from the input. -/
theorem findallRuns_spec_aux (p : Char → Bool) :
    ∀ (n : Nat) (l : List Char), l.length ≤ n →
      ∀ r ∈ findallRuns p l, r ≠ [] ∧ ∀ c ∈ r, p c = true ∧ c ∈ l := by
  intro n
  induction n with
  | zero =>
    intro l hl r hr
    rw [List.length_eq_zero.1 (Nat.le_zero.1 hl)] at hr
    simp [findallRuns, findallAux] at hr
  | succ n ih =>
    intro l hl r hr
    match l with
    | [] => simp [findallRuns, findallAux] at hr
    | c :: cs =>
      by_cases hc : p c = true
      · rw [findallRuns_pos cs hc] at hr
        rcases List.mem_cons.1 hr with rfl | hr2
        · refine ⟨List.cons_ne_nil _ _, ?_⟩
          intro d hd
          rcases List.mem_cons.1 hd with rfl | hd2
          · exact ⟨hc, List.mem_cons_self _ _⟩
          · rcases mem_takeWhile hd2 with ⟨hmem, hpd⟩
            exact ⟨hpd, List.mem_cons_of_mem _ hmem⟩
        · have hlen : (cs.dropWhile p).length ≤ n :=
            Nat.le_trans (dropWhile_length_le p cs) (Nat.le_of_succ_le_succ hl)
          rcases ih _ hlen r hr2 with ⟨hne, hall⟩
          refine ⟨hne, fun d hd => ?_⟩
          rcases hall d hd with ⟨hpd, hmem⟩
          exact ⟨hpd, List.mem_cons_of_mem _ (mem_dropWhile hmem)⟩
      · rw [findallRuns_neg cs (Bool.of_not_eq_true hc)] at hr
        have hlen : cs.length ≤ n := Nat.le_of_succ_le_succ hl
        rcases ih _ hlen r hr with ⟨hne, hall⟩
        refine ⟨hne, fun d hd => ?_⟩
        rcases hall d hd with ⟨hpd, hmem⟩
        exact ⟨hpd, List.mem_cons_of_mem _ hmem⟩

theorem findallRuns_spec (p : Char → Bool) (l : List Char) :
    ∀ r ∈ findallRuns p l, r ≠ [] ∧ ∀ c ∈ r, p c = true ∧ c ∈ l :=
  findallRuns_spec_aux p l.length l (Nat.le_refl _)

/-- A sequence with no character of the class yields no runs. -/
theorem findallRuns_nil (p : Char → Bool) :
    ∀ l : List Char, (∀ c ∈ l, p c = false) → findallRuns p l = [] := by
  intro l
  induction l with
  | nil => intro _; rfl
  | cons c cs ih =>
    intro h
    rw [findallRuns_neg cs (h c (List.mem_cons_self c cs))]
    exact ih fun d hd => h d (List.mem_cons_of_mem c hd)

theorem joinSp_cons₂ (r r2 : List Char) (rs : List (List Char)) :
    joinSp (r :: r2 :: rs) = r ++ ' ' :: joinSp (r2 :: rs) := rfl

theorem mem_joinSp {c : Char} :
    ∀ {rs : List (List Char)}, c ∈ joinSp rs → (∃ r ∈ rs, c ∈ r) ∨ c = ' '
  | [], h => by simp [joinSp] at h
  | [r], h => Or.inl ⟨r, List.mem_cons_self _ _, h⟩
  | r :: r2 :: rs, h => by
    rw [joinSp_cons₂] at h
    rcases List.mem_append.1 h with h1 | h2
    · exact Or.inl ⟨r, List.mem_cons_self _ _, h1⟩
    · rcases List.mem_cons.1 h2 with rfl | h3
      · exact Or.inr rfl
      · rcases mem_joinSp h3 with ⟨r', hr', hc⟩ | hsp
        · exact Or.inl ⟨r', List.mem_cons_of_mem _ hr', hc⟩
        · exact Or.inr hsp

theorem joinSp_cons_head (c : Char) (rt : List Char) :
    ∀ rs : List (List Char), ∃ t, joinSp ((c :: rt) :: rs) = c :: t
  | [] => ⟨rt, rfl⟩
  | r2 :: rs => ⟨rt ++ ' ' :: joinSp (r2 :: rs), rfl⟩

/-- A non-whitespace character passes through the whitespace rewrite and
resets its state. -/
theorem subWs_cons_nonspace {c : Char} (hc : isSpacePy c = false)
    (l : List Char) (b : Bool) :
    subWsAux (c :: l) b = c :: subWsAux l false := by
  simp [subWsAux, hc]

/-- Rewriting whitespace runs leaves a sequence beginning with a nonempty
run of non-whitespace characters intact up to that run. -/
theorem subWs_run :
    ∀ (r : List Char) (l : List Char) (b : Bool), r ≠ [] →
      (∀ c ∈ r, isSpacePy c = false) →
      subWsAux (r ++ l) b = r ++ subWsAux l false := by
  intro r
  induction r with
  | nil => intro l b hne _; exact absurd rfl hne
  | cons c r' ih =>
    intro l b _ h
    rw [List.cons_append, subWs_cons_nonspace (h c (List.mem_cons_self _ _))]
    cases r' with
    | nil => simp
    | cons c2 r'' =>
      rw [ih l false (List.cons_ne_nil _ _)
        (fun d hd => h d (List.mem_cons_of_mem c hd))]
      simp

theorem mem_subWs {c : Char} :
    ∀ (l : List Char) (b : Bool), c ∈ subWsAux l b → c ∈ l ∨ c = ' ' := by
  intro l
  induction l with
  | nil => intro b h; simp [subWsAux] at h
  | cons d ds ih =>
    intro b h
    rw [subWsAux] at h
    by_cases hd : isSpacePy d = true
    · rw [if_pos hd] at h
      cases b with
      | true =>
        rw [if_pos rfl] at h
        rcases ih true h with h2 | h2
        · exact Or.inl (List.mem_cons_of_mem _ h2)
        · exact Or.inr h2
      | false =>
        rw [if_neg (by simp)] at h
        rcases List.mem_cons.1 h with rfl | h2
        · exact Or.inr rfl
        · rcases ih true h2 with h3 | h3
          · exact Or.inl (List.mem_cons_of_mem _ h3)
          · exact Or.inr h3
    · rw [if_neg hd] at h
      rcases List.mem_cons.1 h with rfl | h2
      · exact Or.inl (List.mem_cons_self _ _)
      · rcases ih false h2 with h3 | h3
        · exact Or.inl (List.mem_cons_of_mem _ h3)
        · exact Or.inr h3

theorem mem_strip {c : Char} {l : List Char} (h : c ∈ strip l) : c ∈ l := by
  rw [strip] at h
  rw [List.mem_reverse] at h
  have h2 := mem_dropWhile h
  rw [List.mem_reverse] at h2
  exact mem_dropWhile h2

theorem mem_squeeze {c : Char} {l : List Char} (h : c ∈ squeeze l) :
    c ∈ l ∨ c = ' ' := by
  rw [squeeze] at h
  exact mem_subWs l false (mem_strip h)

/-- `strip` is the identity when neither end of the sequence is
whitespace. -/
theorem strip_eq_self {l : List Char}
    (h1 : ∀ c, l.head? = some c → isSpacePy c = false)
    (h2 : ∀ c, l.getLast? = some c → isSpacePy c = false) :
    strip l = l := by
  rw [strip, dropWhile_head_false h1, dropWhile_head_false, List.reverse_reverse]
  intro c hc
  rw [List.head?_reverse] at hc
  exact h2 c hc

theorem getLast?_mem' {c : Char} {l : List Char} (h : l.getLast? = some c) :
    c ∈ l := by
  rw [← List.head?_reverse] at h
  rw [← List.mem_reverse]
  cases hr : l.reverse with
  | nil => rw [hr] at h; simp at h
  | cons d ds =>
    rw [hr] at h
    simp only [List.head?_cons, Option.some.injEq] at h
    subst h
    exact List.mem_cons_self _ _

/-- Ethiopic characters are not whitespace. -/
theorem eth_not_space {c : Char} (h : isEth c = true) : isSpacePy c = false := by
  by_contra hs
  have hs2 : isSpacePy c = true := Bool.of_not_eq_false hs
  simp only [isSpacePy, Bool.or_eq_true, decide_eq_true_eq] at hs2
  rcases hs2 with ((((rfl | rfl) | rfl) | rfl) | rfl) | rfl <;> simp [isEth] at h

/-- Ethiopic characters are not the space character. -/
theorem eth_ne_space {c : Char} (h : isEth c = true) : c ≠ ' ' := by
  intro rfl1
  subst rfl1
  simp [isEth] at h

/-- The head of the join of runs of Ethiopic characters is Ethiopic. -/
theorem joinSp_head_eth :
    ∀ (rs : List (List Char)),
      (∀ r ∈ rs, r ≠ [] ∧ ∀ c ∈ r, isEth c = true) →
      ∀ c, (joinSp rs).head? = some c → isEth c = true := by
  intro rs h c hc
  cases rs with
  | nil => simp [joinSp] at hc
  | cons r rs' =>
    rcases h r (List.mem_cons_self _ _) with ⟨hne, hall⟩
    cases r with
    | nil => exact absurd rfl hne
    | cons c0 rt =>
      rcases joinSp_cons_head c0 rt rs' with ⟨t, ht⟩
      rw [ht] at hc
      simp only [List.head?_cons, Option.some.injEq] at hc
      subst hc
      exact hall c0 (List.mem_cons_self _ _)

theorem getLast?_append_right {a b : List Char} (hb : b ≠ []) :
    (a ++ b).getLast? = b.getLast? := by
  rw [← List.head?_reverse, ← List.head?_reverse, List.reverse_append]
  cases hbr : b.reverse with
  | nil =>
    exact absurd (by rw [← List.reverse_reverse b, hbr]; rfl) hb
  | cons x xs => simp

/-- The last character of the join of runs of Ethiopic characters is
Ethiopic. -/
theorem joinSp_last_eth :
    ∀ (rs : List (List Char)),
      (∀ r ∈ rs, r ≠ [] ∧ ∀ c ∈ r, isEth c = true) →
      ∀ c, (joinSp rs).getLast? = some c → isEth c = true := by
  intro rs
  induction rs with
  | nil => intro _ c hc; simp [joinSp] at hc
  | cons r rs' ih =>
    intro h c hc
    cases rs' with
    | nil =>
      rw [joinSp] at hc
      exact (h r (List.mem_cons_self _ _)).2 c (getLast?_mem' hc)
    | cons r2 rs'' =>
      rw [joinSp_cons₂] at hc
      rcases h r2 (List.mem_cons_of_mem _ (List.mem_cons_self _ _)) with ⟨hne2, _⟩
      obtain ⟨d, ds, hj⟩ : ∃ d ds, joinSp (r2 :: rs'') = d :: ds := by
        cases r2 with
        | nil => exact absurd rfl hne2
        | cons c2 rt2 =>
          rcases joinSp_cons_head c2 rt2 rs'' with ⟨t, ht⟩
          exact ⟨c2, t, ht⟩
      rw [hj, getLast?_append_right (List.cons_ne_nil _ _),
        List.getLast?_cons_cons] at hc
      apply ih (fun r' hr' => h r' (List.mem_cons_of_mem _ hr')) c
      rw [hj]
      exact hc

/-- The whitespace rewrite is the identity on a join of nonempty Ethiopic
runs. -/
theorem subWs_joinSp :
    ∀ (rs : List (List Char)),
      (∀ r ∈ rs, r ≠ [] ∧ ∀ c ∈ r, isEth c = true) →
      ∀ b, subWsAux (joinSp rs) b = joinSp rs := by
  intro rs
  induction rs with
  | nil => intro _ b; rw [joinSp]; rfl
  | cons r rs' ih =>
    intro h b
    rcases h r (List.mem_cons_self _ _) with ⟨hne, hall⟩
    have hnosp : ∀ c ∈ r, isSpacePy c = false :=
      fun c hc => eth_not_space (hall c hc)
    cases rs' with
    | nil =>
      rw [joinSp]
      have := subWs_run r [] b hne hnosp
      rw [List.append_nil] at this
      rw [this, subWsAux, List.append_nil]
    | cons r2 rs'' =>
      rw [joinSp_cons₂, subWs_run r _ b hne hnosp]
      have hsp : isSpacePy ' ' = true := by decide
      rw [subWsAux, if_pos hsp, if_neg (by simp)]
      rw [ih (fun r' hr' => h r' (List.mem_cons_of_mem _ hr')) true]

/-- `squeeze` is the identity on a join of nonempty Ethiopic runs. -/
theorem squeeze_joinSp
    (rs : List (List Char))
    (h : ∀ r ∈ rs, r ≠ [] ∧ ∀ c ∈ r, isEth c = true) :
    squeeze (joinSp rs) = joinSp rs := by
  rw [squeeze, subWs_joinSp rs h false]
  exact strip_eq_self
    (fun c hc => eth_not_space (joinSp_head_eth rs h c hc))
    (fun c hc => eth_not_space (joinSp_last_eth rs h c hc))

/-- `findall` of the class `p` recovers exactly the runs from their
space-separated join, provided every run is nonempty, consists of class
characters, and the space is outside the class. -/
theorem findall_joinSp (p : Char → Bool) (hsp : p ' ' = false) :
    ∀ rs : List (List Char),
      (∀ r ∈ rs, r ≠ [] ∧ ∀ c ∈ r, p c = true) →
      findallRuns p (joinSp rs) = rs := by
  intro rs
  induction rs with
  | nil => intro _; rfl
  | cons r rs' ih =>
    intro h
    rcases h r (List.mem_cons_self _ _) with ⟨hne, hall⟩
    cases r with
    | nil => exact absurd rfl hne
    | cons c rt =>
      have hc : p c = true := hall c (List.mem_cons_self _ _)
      have hrt : ∀ d ∈ rt, p d = true :=
        fun d hd => hall d (List.mem_cons_of_mem _ hd)
      cases rs' with
      | nil =>
        rw [joinSp, findallRuns_pos rt hc, takeWhile_all hrt,
          dropWhile_all hrt]
        rfl
      | cons r2 rs'' =>
        rw [joinSp_cons₂, List.cons_append, findallRuns_pos _ hc,
          takeWhile_append_sep hsp hrt, dropWhile_append_sep hsp hrt,
          findallRuns_neg _ hsp,
          ih (fun r' hr' => h r' (List.mem_cons_of_mem _ hr'))]

theorem contains_true_iff (c : Char) (l : List Char) :
    l.contains c = true ↔ c ∈ l := by
  simp

theorem removePunct_id :
    ∀ l : List Char, (∀ c ∈ l, punctChars.contains c = false) →
      removePunct l = l
  | [], _ => rfl
  | c :: cs, h => by
    have hc : (!(punctChars.contains c)) = true := by
      rw [h c (List.mem_cons_self _ _)]
      rfl
    rw [removePunct, List.filter_cons, if_pos hc]
    exact congrArg (c :: ·)
      (removePunct_id cs fun d hd => h d (List.mem_cons_of_mem _ hd))

/-- The runs underlying `normChars` are nonempty and Ethiopic. -/
theorem normChars_runs_good (l : List Char) :
    ∀ r ∈ findallRuns isEth (squeeze (removePunct l)),
      r ≠ [] ∧ ∀ c ∈ r, isEth c = true :=
  fun r hr =>
    ⟨(findallRuns_spec _ _ r hr).1,
     fun c hc => ((findallRuns_spec _ _ r hr).2 c hc).1⟩

/-- Every character of a normalized string is a non-punctuation Ethiopic
character or the single-space separator. -/
theorem normChars_mem {l : List Char} {c : Char} (h : c ∈ normChars l) :
    (isEth c = true ∧ punctChars.contains c = false) ∨ c = ' ' := by
  rw [normChars] at h
  rcases mem_joinSp h with ⟨r, hr, hcr⟩ | rfl
  · rcases (findallRuns_spec _ _ r hr).2 c hcr with ⟨hE, hmem⟩
    rcases mem_squeeze hmem with hrp | rfl
    · rcases List.mem_filter.1 hrp with ⟨_, hkeep⟩
      refine Or.inl ⟨hE, ?_⟩
      cases hcontains : punctChars.contains c with
      | false => rfl
      | true => rw [hcontains] at hkeep; simp at hkeep
    · exact Or.inr rfl
  · exact Or.inr rfl

/-- Normalization is saturated: renormalizing a normalized character
sequence changes nothing. -/
theorem normChars_idem (l : List Char) :
    normChars (normChars l) = normChars l := by
  have key : ∀ rs : List (List Char),
      (∀ r ∈ rs, r ≠ [] ∧ ∀ c ∈ r, isEth c = true ∧ punctChars.contains c = false) →
      normChars (joinSp rs) = joinSp rs := by
    intro rs h
    have hgood : ∀ r ∈ rs, r ≠ [] ∧ ∀ c ∈ r, isEth c = true :=
      fun r hr => ⟨(h r hr).1, fun c hc => ((h r hr).2 c hc).1⟩
    have h1 : removePunct (joinSp rs) = joinSp rs := by
      apply removePunct_id
      intro c hc
      rcases mem_joinSp hc with ⟨r, hr, hcr⟩ | rfl
      · exact ((h r hr).2 c hcr).2
      · decide
    rw [normChars, h1, squeeze_joinSp rs hgood,
      findall_joinSp isEth (by decide) rs hgood]
  apply key
  intro r hr
  refine ⟨(findallRuns_spec _ _ r hr).1, fun c hc => ?_⟩
  rcases (findallRuns_spec _ _ r hr).2 c hc with ⟨hE, hmem⟩
  refine ⟨hE, ?_⟩
  rcases mem_squeeze hmem with hrp | rfl
  · rcases List.mem_filter.1 hrp with ⟨_, hkeep⟩
    cases hcontains : punctChars.contains c with
    | false => rfl
    | true => rw [hcontains] at hkeep; simp at hkeep
  · exact absurd rfl (eth_ne_space hE)

theorem nds_cons {c : Char} (hc : c ≠ ' ') (l : List Char) :
    noDoubleSpace (c :: l) = noDoubleSpace l := by
  cases l with
  | nil => rfl
  | cons d t =>
    rw [noDoubleSpace]
    have hbeq : (c == ' ') = false := beq_eq_false_iff_ne.mpr hc
    simp [hbeq]

theorem nds_append :
    ∀ (a l : List Char), (∀ c ∈ a, c ≠ ' ') →
      noDoubleSpace (a ++ l) = noDoubleSpace l
  | [], l, _ => rfl
  | c :: a', l, h => by
    rw [List.cons_append, nds_cons (h c (List.mem_cons_self _ _))]
    exact nds_append a' l fun d hd => h d (List.mem_cons_of_mem _ hd)

/-- The join of nonempty Ethiopic runs never has two adjacent spaces. -/
theorem nds_joinSp :
    ∀ rs : List (List Char),
      (∀ r ∈ rs, r ≠ [] ∧ ∀ c ∈ r, isEth c = true) →
      noDoubleSpace (joinSp rs) = true := by
  intro rs
  induction rs with
  | nil => intro _; rfl
  | cons r rs' ih =>
    intro h
    rcases h r (List.mem_cons_self _ _) with ⟨hne, hall⟩
    have hnosp : ∀ c ∈ r, c ≠ ' ' := fun c hc => eth_ne_space (hall c hc)
    cases rs' with
    | nil =>
      have := nds_append r [] hnosp
      rw [List.append_nil] at this
      rw [joinSp, this]
      rfl
    | cons r2 rs'' =>
      rw [joinSp_cons₂, nds_append r _ hnosp]
      rcases h r2 (List.mem_cons_of_mem _ (List.mem_cons_self _ _)) with ⟨hne2, hall2⟩
      cases r2 with
      | nil => exact absurd rfl hne2
      | cons c2 rt2 =>
        rcases joinSp_cons_head c2 rt2 rs'' with ⟨t, ht⟩
        have hc2 : (c2 == ' ') = false :=
          beq_eq_false_iff_ne.mpr (eth_ne_space (hall2 c2 (List.mem_cons_self _ _)))
        rw [ht, noDoubleSpace]
        simp only [hc2, Bool.and_false, Bool.not_false, Bool.true_and]
        rw [← ht]
        exact ih fun r' hr' => h r' (List.mem_cons_of_mem _ hr')

/-- C5: `normalize_text` returns the `nan` sentinel exactly on non-string
input; a string in which no character survives filtering (every Ethiopic
character of it is in the removed punctuation class) normalizes to the
empty string, and the empty string is distinct from the sentinel. -/
theorem normalize_sentinel_vs_empty :
    (∀ v : PyObj, normalize_text v = none ↔ v.isString = false) ∧
    (∀ s : String, (∀ c ∈ s.data, isEth c = true → c ∈ punctChars) →
      normalize_text (.ofString s) = some "") ∧
    some "" ≠ (none : Option String) := by
  refine ⟨?_, ?_, by simp⟩
  · intro v
    cases v <;> simp [normalize_text, PyObj.isString]
  · intro s h
    have hall : ∀ c ∈ squeeze (removePunct s.data), isEth c = false := by
      intro c hc
      rcases mem_squeeze hc with hc2 | rfl
      · rcases List.mem_filter.1 hc2 with ⟨hmem, hkeep⟩
        cases hE : isEth c with
        | false => rfl
        | true =>
          have := (contains_true_iff c punctChars).2 (h c hmem hE)
          rw [this] at hkeep
          simp at hkeep
      · decide
    have hruns : findallRuns isEth (squeeze (removePunct s.data)) = [] :=
      findallRuns_nil _ _ hall
    simp [normalize_text, normChars, hruns, joinSp]

/-- Witness for C5: `np.nan` input gives the sentinel, and the all-filtered
string `"a1,"` gives the empty string, not the sentinel. -/
theorem normalize_sentinel_vs_empty_witness :
    (normalize_text PyObj.nan = none) ∧
    normalize_text (.ofString "a1,") = some "" :=
  ⟨(normalize_sentinel_vs_empty.1 PyObj.nan).mpr rfl,
   normalize_sentinel_vs_empty.2.1 "a1," (by decide)⟩

/-- C6: the normalizer is idempotent on every string. -/
theorem normalize_idempotent :
    ∀ x : String,
      (normalize_text (.ofString x)).bind (fun r => normalize_text (.ofString r)) =
        normalize_text (.ofString x) := by
  intro x
  show some (String.mk (normChars (normChars x.data))) =
    some (String.mk (normChars x.data))
  rw [normChars_idem]

/-- C7: for every string input, the normalized output consists only of
Ethiopic-block characters and space separators, contains no character of
the punctuation class, and never has two adjacent spaces. -/
theorem normalize_output_charset :
    ∀ (s out : String), normalize_text (.ofString s) = some out →
      (∀ c ∈ out.data, (isEth c = true ∨ c = ' ') ∧
        punctChars.contains c = false) ∧
      noDoubleSpace out.data = true := by
  intro s out h
  have hout : String.mk (normChars s.data) = out := by
    simpa [normalize_text] using h
  subst hout
  constructor
  · intro c hc
    rcases normChars_mem hc with ⟨h1, h2⟩ | rfl
    · exact ⟨Or.inl h1, h2⟩
    · exact ⟨Or.inr rfl, by decide⟩
  · exact nds_joinSp _ (normChars_runs_good s.data)

/-- Witness for C7 at the input `"ሀ!ለ"`, normalized to `"ሀ ለ"`. -/
theorem normalize_output_charset_witness :
    (∀ c ∈ ("ሀ ለ" : String).data, (isEth c = true ∨ c = ' ') ∧
      punctChars.contains c = false) ∧
    noDoubleSpace ("ሀ ለ" : String).data = true :=
  normalize_output_charset "ሀ!ለ" "ሀ ለ" (by decide)

/-!
Lemmas about the CoNLL exporter and its inverse.
-/

theorem foldl_append_data :
    ∀ (xs : List String) (a : String),
      (xs.foldl (· ++ ·) a).data = a.data ++ (xs.foldl (· ++ ·) "").data
  | [], a => by simp
  | x :: xs, a => by
    simp only [List.foldl]
    rw [foldl_append_data xs (a ++ x), foldl_append_data xs ("" ++ x)]
    simp [String.data_append]

theorem join_data_cons (x : String) (xs : List String) :
    (String.join (x :: xs)).data = x.data ++ (String.join xs).data := by
  simp only [String.join, List.foldl]
  rw [foldl_append_data xs ("" ++ x)]
  simp [String.data_append]

/-- The file written by `save_conll_format`, character by character. -/
theorem save_data :
    ∀ docs : List (List (String × String)),
      (save_conll_format docs).data = saveC docs := by
  intro docs
  have line_data : ∀ doc : List (String × String),
      (String.join (doc.map (fun p => p.1 ++ " " ++ p.2 ++ "\n"))).data =
        docLinesC doc := by
    intro doc
    induction doc with
    | nil => rfl
    | cons p ps ih =>
      rw [List.map_cons, join_data_cons, ih, docLinesC]
      simp [String.data_append]
  induction docs with
  | nil => rfl
  | cons doc rest ih =>
    rw [save_conll_format, List.map_cons, join_data_cons]
    rw [save_conll_format] at ih
    rw [ih, saveC, String.data_append, line_data]
    simp

theorem splitLines_append_nl :
    ∀ (a b : List Char), (∀ c ∈ a, c ≠ '\n') →
      splitLines (a ++ '\n' :: b) = a :: splitLines b
  | [], b, _ => by rw [List.nil_append, splitLines, if_pos rfl]
  | c :: a', b, h => by
    rw [List.cons_append, splitLines,
      if_neg (h c (List.mem_cons_self _ _)),
      splitLines_append_nl a' b (fun d hd => h d (List.mem_cons_of_mem _ hd))]

/-- Splitting the written file into lines gives, document by document, the
token-tag lines followed by one blank line, plus the final empty segment
from the terminating newline. -/
theorem splitLines_saveC :
    ∀ docs : List (List (String × String)),
      (∀ doc ∈ docs, ∀ p ∈ doc, '\n' ∉ p.1.data ∧ '\n' ∉ p.2.data) →
      splitLines (saveC docs) = linesC docs ++ [[]] := by
  intro docs
  induction docs with
  | nil => intro _; rfl
  | cons doc rest ih =>
    intro h
    have doc_part : ∀ (ps : List (String × String)) (tail : List Char),
        (∀ p ∈ ps, '\n' ∉ p.1.data ∧ '\n' ∉ p.2.data) →
        splitLines (docLinesC ps ++ tail) =
          ps.map (fun p => p.1.data ++ ' ' :: p.2.data) ++ splitLines tail := by
      intro ps
      induction ps with
      | nil => intro tail _; rfl
      | cons p ps' ihp =>
        intro tail hp
        rcases hp p (List.mem_cons_self _ _) with ⟨h1, h2⟩
        have hline : ∀ c ∈ p.1.data ++ ' ' :: p.2.data, c ≠ '\n' := by
          intro c hc
          rcases List.mem_append.1 hc with hc1 | hc2
          · exact fun heq => h1 (heq ▸ hc1)
          · rcases List.mem_cons.1 hc2 with rfl | hc3
            · decide
            · exact fun heq => h2 (heq ▸ hc3)
        rw [docLinesC, List.map_cons]
        have : p.1.data ++ ' ' :: p.2.data ++ '\n' :: docLinesC ps' ++ tail =
            (p.1.data ++ ' ' :: p.2.data) ++ '\n' :: (docLinesC ps' ++ tail) := by
          simp
        rw [this, splitLines_append_nl _ _ hline,
          ihp tail (fun q hq => hp q (List.mem_cons_of_mem _ hq))]
        simp
    rw [saveC, doc_part doc ('\n' :: saveC rest)
      (fun p hp => h doc (List.mem_cons_self _ _) p hp)]
    rw [splitLines, if_pos rfl,
      ih (fun d hd p hp => h d (List.mem_cons_of_mem _ hd) p hp)]
    rw [linesC]
    simp

theorem dropTrailEmpty_append :
    ∀ ls : List (List Char), dropTrailEmpty (ls ++ [[]]) = ls
  | [] => rfl
  | l :: ls' => by
    have hne : ls' ++ [[]] ≠ [] := by simp
    cases hl : ls' ++ [[]] with
    | nil => exact absurd hl hne
    | cons x xs =>
      rw [List.cons_append, hl, dropTrailEmpty]
      · rw [← hl, dropTrailEmpty_append ls']
      · simp

/-- Reading a written line recovers the pair, provided the token contains
no space. -/
theorem parseLine_inv (p : String × String) (hsp : ' ' ∉ p.1.data) :
    parseLine (p.1.data ++ ' ' :: p.2.data) = p := by
  have hall : ∀ c ∈ p.1.data, (fun c => decide (c ≠ ' ')) c = true := by
    intro c hc
    simp only [decide_eq_true_eq]
    exact fun heq => hsp (heq ▸ hc)
  have hsep : (fun c => decide (c ≠ ' ')) ' ' = false := by decide
  rw [parseLine]
  simp only [takeWhile_append_sep hsep hall, dropWhile_append_sep hsep hall]

theorem groupDocs_cons_line (l : List Char) (rest : List (List Char))
    (acc : List (String × String)) (hne : l ≠ []) :
    groupDocs (l :: rest) acc = groupDocs rest (parseLine l :: acc) := by
  cases l with
  | nil => exact absurd rfl hne
  | cons c cs => rfl

/-- Consuming one document's lines and its blank separator emits the
document (after the pending accumulator) and restarts. -/
theorem groupDocs_doc :
    ∀ (doc : List (String × String)) (rest : List (List Char))
      (acc : List (String × String)),
      (∀ p ∈ doc, ' ' ∉ p.1.data) →
      groupDocs (doc.map (fun p => p.1.data ++ ' ' :: p.2.data) ++ [] :: rest) acc =
        (acc.reverse ++ doc) :: groupDocs rest [] := by
  intro doc
  induction doc with
  | nil =>
    intro rest acc _
    rw [List.map_nil, List.nil_append, groupDocs]
    simp
  | cons p ps ih =>
    intro rest acc h
    rw [List.map_cons, List.cons_append,
      groupDocs_cons_line _ _ _ (by cases hp : p.1.data <;> simp [hp]),
      parseLine_inv p (h p (List.mem_cons_self _ _)),
      ih rest (p :: acc) (fun q hq => h q (List.mem_cons_of_mem _ hq))]
    simp

/-- Grouping the line image of a document list recovers the documents. -/
theorem groupDocs_linesC :
    ∀ docs : List (List (String × String)),
      (∀ doc ∈ docs, ∀ p ∈ doc, ' ' ∉ p.1.data) →
      groupDocs (linesC docs) [] = docs := by
  intro docs
  induction docs with
  | nil => intro _; rfl
  | cons doc rest ih =>
    intro h
    rw [linesC, groupDocs_doc doc _ [] (h doc (List.mem_cons_self _ _)),
      ih (fun d hd p hp => h d (List.mem_cons_of_mem _ hd) p hp)]
    rfl

theorem mk_line (a b : String) :
    String.mk (a.data ++ ' ' :: b.data) = a ++ " " ++ b := by
  have hd : (a ++ " " ++ b).data = a.data ++ ' ' :: b.data := by
    rw [String.data_append, String.data_append]
    simp
  rw [← hd]

theorem map_mk_linesC :
    ∀ docs : List (List (String × String)),
      (linesC docs).map String.mk = conllLines docs := by
  intro docs
  induction docs with
  | nil => rfl
  | cons doc rest ih =>
    rw [linesC, conllLines, List.map_append, List.map_cons, ih, List.map_map]
    have : ∀ p : String × String,
        (String.mk ∘ fun p : String × String => p.1.data ++ ' ' :: p.2.data) p =
          (fun p : String × String => p.1 ++ " " ++ p.2) p :=
      fun p => mk_line p.1 p.2
    rw [List.map_congr_left (fun p _ => this p)]

/-- C8: `label_tokens` yields exactly one pair per token in left-to-right
order (its first components are the input token list itself), and the file
written by `save_conll_format` lists, per document, one `"<token> <tag>"`
line per pair in that same order followed by one blank line, so order is
preserved from tokenization through export. -/
theorem token_order_preserved :
    (∀ ts : List String, (label_tokens ts).map Prod.fst = ts) ∧
    (∀ docs : List (List (String × String)),
      (∀ doc ∈ docs, ∀ p ∈ doc, '\n' ∉ p.1.data ∧ '\n' ∉ p.2.data) →
      splitLinesStr (save_conll_format docs) = conllLines docs ++ [""]) := by
  constructor
  · intro ts
    rw [label_tokens_eq_map, List.map_map]
    exact List.map_id ts
  · intro docs h
    rw [splitLinesStr, save_data, splitLines_saveC docs h, List.map_append,
      map_mk_linesC]
    rfl

/-- Witness for C8 at one token list and one two-document set. -/
theorem token_order_preserved_witness :
    (label_tokens ["ቦሌ", "xyz"]).map Prod.fst = ["ቦሌ", "xyz"] ∧
    splitLinesStr (save_conll_format [[("ሀ", "B-LOC")], [("x", "O"), ("y", "B-PRICE")]]) =
      conllLines [[("ሀ", "B-LOC")], [("x", "O"), ("y", "B-PRICE")]] ++ [""] :=
  ⟨token_order_preserved.1 ["ቦሌ", "xyz"],
   token_order_preserved.2 [[("ሀ", "B-LOC")], [("x", "O"), ("y", "B-PRICE")]]
     (by decide)⟩

/-- C10 fails as stated: the writer is not injective, so no reader can
reproduce every labeled document set.  A token containing a space collides
with the corresponding token/tag split, and `parse_conll` returns the other
decomposition. -/
theorem conll_roundtrip_counterexample :
    save_conll_format [[("a b", "O")]] = save_conll_format [[("a", "b O")]] ∧
    parse_conll (save_conll_format [[("a b", "O")]]) ≠ [[("a b", "O")]] := by
  constructor
  · decide
  · decide

/-- C10 (amended): for document sets whose tokens contain no space and no
newline and whose tags contain no newline, the written file has, per
document, one `"<token> <tag>"` line per pair followed by exactly one blank
line and nothing else, and parsing the file back reproduces the same
ordered pairs per document. -/
theorem conll_roundtrip :
    ∀ docs : List (List (String × String)),
      (∀ doc ∈ docs, ∀ p ∈ doc,
        ' ' ∉ p.1.data ∧ '\n' ∉ p.1.data ∧ '\n' ∉ p.2.data) →
      parse_conll (save_conll_format docs) = docs ∧
      splitLinesStr (save_conll_format docs) = conllLines docs ++ [""] := by
  intro docs h
  have hnl : ∀ doc ∈ docs, ∀ p ∈ doc, '\n' ∉ p.1.data ∧ '\n' ∉ p.2.data :=
    fun doc hd p hp => ⟨(h doc hd p hp).2.1, (h doc hd p hp).2.2⟩
  refine ⟨?_, token_order_preserved.2 docs hnl⟩
  rw [parse_conll, save_data, splitLines_saveC docs hnl,
    dropTrailEmpty_append]
  exact groupDocs_linesC docs (fun doc hd p hp => (h doc hd p hp).1)

/-- Witness for the amended C10 at a two-document set. -/
theorem conll_roundtrip_witness :
    parse_conll (save_conll_format [[("ሀ", "B-LOC")], [("100ብር", "B-PRICE")]]) =
      [[("ሀ", "B-LOC")], [("100ብር", "B-PRICE")]] :=
  (conll_roundtrip [[("ሀ", "B-LOC")], [("100ብር", "B-PRICE")]] (by decide)).1

/-!
Lemmas about the metadata extractor.
-/

theorem headNotSpace_heads {l : List Char} (h : headNotSpace l = true) :
    ∀ c, l.head? = some c → isSpacePy c = false := by
  intro c hc
  cases l with
  | nil => simp at hc
  | cons d ds =>
    simp only [List.head?_cons, Option.some.injEq] at hc
    subst hc
    simp only [headNotSpace, Bool.not_eq_true'] at h
    exact h

/-- A lazy group position while the remaining input begins with a
non-whitespace-led segment and a comma: the greedy `\s*` consumes
nothing. -/
theorem dropWhile_append_comma (x Y : List Char) (h : headNotSpace x = true) :
    (x ++ ',' :: Y).dropWhile isSpacePy = x ++ ',' :: Y := by
  apply dropWhile_head_false
  intro c hc
  cases x with
  | nil =>
    simp only [List.nil_append, List.head?_cons, Option.some.injEq] at hc
    subst hc
    decide
  | cons d ds =>
    simp only [List.cons_append, List.head?_cons, Option.some.injEq] at hc
    rw [← hc]
    exact headNotSpace_heads h d rfl

theorem msgDelim_ne (c : Char) (l : List Char) (hc : c ≠ ',') :
    msgDelim (c :: l) = none := by
  simp [msgDelim, hc]

theorem tsDelim_ne (c : Char) (l : List Char) (hc : c ≠ ',') :
    tsDelim (c :: l) = none := by
  simp [tsDelim, hc]

/-- The `,\s*Message:\s*(?P<message>.*)` delimiter succeeds at the template
boundary and captures exactly `m` when `m` has no leading whitespace and no
newline. -/
theorem msgDelim_at (m : List Char) (hm1 : ∀ c ∈ m, c ≠ '\n')
    (hm2 : headNotSpace m = true) :
    msgDelim (',' :: ((" Message: " : String).data ++ m)) = some m := by
  have h0 : msgDelim (',' :: ((" Message: " : String).data ++ m)) =
      some ((m.dropWhile isSpacePy).takeWhile (fun x => x ≠ '\n')) := rfl
  rw [h0, dropWhile_head_false (headNotSpace_heads hm2)]
  rw [takeWhile_all (fun c hc => by simp [hm1 c hc])]

/-- The lazy timestamp group scans to the first `,\s*Message:` occurrence;
with no comma and no newline inside `t`, that is the template boundary, and
the group captures exactly `t`. -/
theorem tsLoop_run (m : List Char) (hm1 : ∀ c ∈ m, c ≠ '\n')
    (hm2 : headNotSpace m = true) :
    ∀ t : List Char, (∀ c ∈ t, c ≠ ',' ∧ c ≠ '\n') → ∀ acc,
      tsLoop acc (t ++ ',' :: ((" Message: " : String).data ++ m)) =
        some (acc.reverse ++ t, m) := by
  intro t
  induction t with
  | nil =>
    intro _ acc
    rw [List.nil_append]
    simp only [tsLoop]
    rw [msgDelim_at m hm1 hm2]
    simp
  | cons c t' ih =>
    intro h acc
    rcases h c (List.mem_cons_self _ _) with ⟨hc1, hc2⟩
    rw [List.cons_append]
    simp only [tsLoop]
    rw [msgDelim_ne _ _ hc1, if_neg hc2,
      ih (fun d hd => h d (List.mem_cons_of_mem _ hd)) (c :: acc)]
    simp

/-- The `,\s*Timestamp:\s*` delimiter followed by the timestamp-and-message
tail succeeds at the template boundary with the expected captures. -/
theorem tsDelim_at (t m : List Char)
    (ht : ∀ c ∈ t, c ≠ ',' ∧ c ≠ '\n') (ht2 : headNotSpace t = true)
    (hm1 : ∀ c ∈ m, c ≠ '\n') (hm2 : headNotSpace m = true) :
    tsDelim (',' :: ((" Timestamp: " : String).data ++
      (t ++ ',' :: ((" Message: " : String).data ++ m)))) = some (t, m) := by
  have h0 : tsDelim (',' :: ((" Timestamp: " : String).data ++
      (t ++ ',' :: ((" Message: " : String).data ++ m)))) =
      tsLoop [] ((t ++ ',' :: ((" Message: " : String).data ++ m)).dropWhile
        isSpacePy) := rfl
  rw [h0, dropWhile_append_comma t _ ht2, tsLoop_run m hm1 hm2 t ht []]
  rfl

/-- The lazy sender group scans to the first position where the whole rest
of the pattern succeeds; with no comma and no newline inside `s`, that is
the template boundary. -/
theorem senderLoop_run (t m : List Char)
    (ht : ∀ c ∈ t, c ≠ ',' ∧ c ≠ '\n') (ht2 : headNotSpace t = true)
    (hm1 : ∀ c ∈ m, c ≠ '\n') (hm2 : headNotSpace m = true) :
    ∀ s : List Char, (∀ c ∈ s, c ≠ ',' ∧ c ≠ '\n') → ∀ acc,
      senderLoop acc (s ++ ',' :: ((" Timestamp: " : String).data ++
        (t ++ ',' :: ((" Message: " : String).data ++ m)))) =
        some (acc.reverse ++ s, t, m) := by
  intro s
  induction s with
  | nil =>
    intro _ acc
    rw [List.nil_append]
    simp only [senderLoop]
    rw [tsDelim_at t m ht ht2 hm1 hm2]
    simp
  | cons c s' ih =>
    intro h acc
    rcases h c (List.mem_cons_self _ _) with ⟨hc1, hc2⟩
    rw [List.cons_append]
    simp only [senderLoop]
    rw [tsDelim_ne _ _ hc1, if_neg hc2,
      ih (fun d hd => h d (List.mem_cons_of_mem _ hd)) (c :: acc)]
    simp

/-- `re.match` of the full pattern on a well-formed metadata line captures
the three components. -/
theorem matchMeta_form (s t m : List Char)
    (hs : ∀ c ∈ s, c ≠ ',' ∧ c ≠ '\n') (hs2 : headNotSpace s = true)
    (ht : ∀ c ∈ t, c ≠ ',' ∧ c ≠ '\n') (ht2 : headNotSpace t = true)
    (hm1 : ∀ c ∈ m, c ≠ '\n') (hm2 : headNotSpace m = true) :
    matchMeta (("Sender: " : String).data ++
      (s ++ ',' :: ((" Timestamp: " : String).data ++
        (t ++ ',' :: ((" Message: " : String).data ++ m))))) =
      some (s, t, m) := by
  have h0 : matchMeta (("Sender: " : String).data ++
      (s ++ ',' :: ((" Timestamp: " : String).data ++
        (t ++ ',' :: ((" Message: " : String).data ++ m))))) =
      senderLoop [] ((s ++ ',' :: ((" Timestamp: " : String).data ++
        (t ++ ',' :: ((" Message: " : String).data ++ m)))).dropWhile
          isSpacePy) := rfl
  rw [h0, dropWhile_append_comma s _ hs2,
    senderLoop_run t m ht ht2 hm1 hm2 s hs []]
  rfl

/-- C9 fails as stated: a line of the exact claimed form whose timestamp
field itself contains `", Message: "` is parsed at the earlier delimiter,
so the captured groups are not the components of the decomposition.  Here
`s = "a"`, `t = "b, Message: c"`, `m = "d"`, while the code captures
timestamp `"b"` and message `"c, Message: d"`. -/
theorem extract_metadata_counterexample :
    extract_metadata (.ofString
      ("Sender: " ++ "a" ++ ", Timestamp: " ++ "b, Message: c" ++
        ", Message: " ++ "d")) ≠
      ⟨some "a", some "b, Message: c", some "d"⟩ := by
  decide

/-- C9 (amended): for components without commas or newlines in sender and
timestamp, without newlines in the message, and none beginning with
whitespace, `extract_metadata` on `"Sender: <s>, Timestamp: <t>,
Message: <m>"` captures exactly `s`, `t`, `m`; and on every string the
pattern does not match, it returns sender and timestamp unset and the whole
raw line as the message, without raising. -/
theorem extract_metadata_spec :
    (∀ s t m : String,
      (∀ c ∈ s.data, c ≠ ',' ∧ c ≠ '\n') → headNotSpace s.data = true →
      (∀ c ∈ t.data, c ≠ ',' ∧ c ≠ '\n') → headNotSpace t.data = true →
      (∀ c ∈ m.data, c ≠ '\n') → headNotSpace m.data = true →
      extract_metadata (.ofString
        ("Sender: " ++ s ++ ", Timestamp: " ++ t ++ ", Message: " ++ m)) =
        ⟨some s, some t, some m⟩) ∧
    (∀ raw : String, matchMeta raw.data = none →
      extract_metadata (.ofString raw) = ⟨none, none, some raw⟩) := by
  constructor
  · intro s t m hs hs2 ht ht2 hm hm2
    have hdata :
        ("Sender: " ++ s ++ ", Timestamp: " ++ t ++ ", Message: " ++ m).data =
        ("Sender: " : String).data ++
          (s.data ++ ',' :: ((" Timestamp: " : String).data ++
            (t.data ++ ',' :: ((" Message: " : String).data ++ m.data)))) := by
      simp only [String.data_append, List.append_assoc]
      rfl
    simp only [extract_metadata, hdata,
      matchMeta_form s.data t.data m.data hs hs2 ht ht2 hm hm2]
  · intro raw h
    simp only [extract_metadata, h]

/-- Witness for the amended C9: the spec's own example line is captured
componentwise, and a non-matching line degrades to the whole-line
message. -/
theorem extract_metadata_spec_witness :
    extract_metadata (.ofString
      ("Sender: " ++ "Abebe" ++ ", Timestamp: " ++ "2021-01-01" ++
        ", Message: " ++ "ሰላም ዋጋ 100ብር")) =
      ⟨some "Abebe", some "2021-01-01", some "ሰላም ዋጋ 100ብር"⟩ ∧
    extract_metadata (.ofString "hello there") =
      ⟨none, none, some "hello there"⟩ :=
  ⟨extract_metadata_spec.1 "Abebe" "2021-01-01" "ሰላም ዋጋ 100ብር"
      (by decide) (by decide) (by decide) (by decide) (by decide) (by decide),
   extract_metadata_spec.2 "hello there" (by decide)⟩
